import Mathlib

/-!
Verification of the CGAL Cone_spanners_2 subsystem: the Theta-graph and
Yao-graph construction functors (`Construct_theta_graph_2.h`,
`Construct_yao_graph_2.h`) and the balanced search tree wrapper
(`Cone_spanners_2/Plane_Scan_Tree.h`).

The embedding is shallow:
* points are integer pairs; the kernel's exact real arithmetic is out of
  scope at this granularity (the spec treats the kernel as an external
  collaborator supplying direction-induced total orders and distance
  comparisons), so direction-induced orders and squared-distance
  comparisons are realised over `Int`;
* graphs mirror `boost::adjacency_list` with `undirectedS` and bundled
  point properties: a vertex list (index = insertion order) and an edge
  list in insertion order, where `boost::edge(u, v, g)` matches an edge
  in either orientation;
* `std::exit(1)` in a constructor is modelled as `Option.none`, and a
  thrown `std::out_of_range` as `Except.error`, with the error value of a
  construction run carrying the graph state at throw time (the C++ graph
  is mutated by reference, so the caller observes that state);
* the tree node internals (`_Plane_Scan_Tree.h`), the comparator
  `Less_by_direction_2.h` and the ray generator
  `Compute_cone_boundaries_2.h` are parts of the repository that are not
  among the available sources; they are modelled from the specification,
  as marked in their doc comments.
-/

namespace ConeSpanners

/-- A 2D point with integer coordinates (kernel `Point_2`). -/
abbrev Point := Int × Int

/-- A direction, represented by a nonzero vector (kernel `Direction_2`). -/
abbrev Direction := Int × Int

/-- Equality test of two directions, mirroring the kernel semantics of
`Direction_2::operator==`: two vectors denote the same direction when they
are collinear and point the same way (zero cross product, positive dot
product). Used by `add_edges_in_cone` for the degenerate-cone check. -/
def dirEq (u v : Direction) : Bool :=
  u.1 * v.2 - u.2 * v.1 == 0 && u.1 * v.1 + u.2 * v.2 > 0

/-- The output graph: `boost::adjacency_list` with `vecS` vertices,
bundled `Point_2` vertex properties and undirected edges. `points.get i`
is the point bundled at vertex descriptor `i`; `edges` lists the edges in
insertion order as (source, target) descriptor pairs. -/
structure Graph where
  points : List Point
  edges  : List (Nat × Nat)
deriving DecidableEq

/-- The point bundled at vertex `u` (`g[u]`). -/
def Graph.pointAt (g : Graph) (u : Nat) : Point :=
  g.points.getD u (0, 0)

/-- Whether two stored edges coincide as undirected (unordered) pairs. -/
def pairClash (e f : Nat × Nat) : Bool :=
  (e.1 == f.1 && e.2 == f.2) || (e.1 == f.2 && e.2 == f.1)

/-- `boost::edge(u, v, g).second` on an undirected graph: does some stored
edge join `u` and `v` (in either orientation)? -/
def Graph.edgeExists (g : Graph) (u v : Nat) : Bool :=
  g.edges.any (fun e => pairClash e (u, v))

/-- `boost::add_edge(u, v, g)`: appends the edge. -/
def Graph.addEdge (g : Graph) (u v : Nat) : Graph :=
  { g with edges := g.edges ++ [(u, v)] }

/-- The vertex-insertion loop of `operator()` in both functors:
`for (curr = start; curr != end; ++curr) g[boost::add_vertex(g)] = *curr;`
appends one vertex per input point, in input order. -/
def Graph.addVertices (g : Graph) (ps : List Point) : Graph :=
  { g with points := g.points ++ ps }

/-- The guarded edge insertion shared by both cone edge builders: when a
candidate target exists, check `boost::edge` and call `boost::add_edge`
only if the edge is absent. -/
def Graph.maybeAddEdge (g : Graph) (p : Nat) (r : Option Nat) : Graph :=
  match r with
  | none => g
  | some t => if g.edgeExists p t then g else g.addEdge p t

/-- No two stored edges coincide as unordered pairs. -/
def dupFreeEdges : List (Nat × Nat) → Bool
  | [] => true
  | e :: rest => !(rest.any (pairClash e)) && dupFreeEdges rest

/-- Every stored edge joins two distinct vertices. -/
def selfLoopFree (l : List (Nat × Nat)) : Bool :=
  l.all (fun e => e.1 != e.2)

/-- The projection of a point along a direction ("distance along this
direction", spec section 3). -/
def proj (d : Direction) (p : Point) : Int :=
  d.1 * p.1 + d.2 * p.2

/-- Modelled from the spec: `Less_by_direction_2` (header
`Cone_spanners_2/Less_by_direction_2.h`, not among the available
sources). Per spec section 3 a direction induces a total order over
points by distance along the direction, and the order used for the trees
must be made unique "by breaking ties with point identity"; vertex
descriptors are the point identities here, so ties in the projection are
broken by the descriptor index. Compares the vertices `u`, `v` of `g`
through their bundled points. -/
def lessByDirection (d : Direction) (pts : List Point) (u v : Nat) : Bool :=
  let a := proj d (pts.getD u (0, 0))
  let b := proj d (pts.getD v (0, 0))
  a < b || (a == b && u < v)

/-- Squared Euclidean distance of two points. -/
def sqDist (p q : Point) : Int :=
  (p.1 - q.1) * (p.1 - q.1) + (p.2 - q.2) * (p.2 - q.2)

/-- The kernel collaborator `CGAL::has_smaller_distance_to_point(p, p1, p2)`:
is `p1` strictly closer to `p` than `p2` is? -/
def hasSmallerDistanceToPoint (p p1 p2 : Point) : Bool :=
  sqDist p p1 < sqDist p p2

/-- `Construct_yao_graph_2::Less_euclidean_distance` with base point `p`:
compares two vertex descriptors of `g` by the Euclidean distance of their
bundled points to `p`, via `has_smaller_distance_to_point`. -/
def lessEuclideanDistance (pts : List Point) (p : Point) (i j : Nat) : Bool :=
  hasSmallerDistanceToPoint p (pts.getD i (0, 0)) (pts.getD j (0, 0))

/-- Left fold computing a minimum under a strict comparator, as
`std::min_element` does over `first :: rest`: a later element replaces the
current minimum only when strictly smaller, so the first minimum wins. -/
def foldlMin (lt : α → α → Bool) (a : α) (l : List α) : α :=
  l.foldl (fun m z => if lt z m then z else m) a

/-- `ThetaDetail::Plane_Scan_Tree<Key, T, Comp, VComp>`. The wrapper class
is among the sources; its node internals (`_Plane_Scan_Tree.h`) are not,
so the tree state is modelled from the spec as the list of inserted
(key, value) entries together with the stored key comparator. A null root
corresponds to an empty entry list (the root is created by the first
`add` and never removed). The stored `value_compare` only selects among
equally-minimal keys, which cannot occur under the documented
unique-ordering precondition, so it is not part of the model. -/
structure PSTree (K V : Type) where
  less : K → K → Bool
  entries : List (K × V)

/-- `Plane_Scan_Tree(comp, vcomp)`: the explicit constructor makes an
empty tree (`root = NULL`). -/
def PSTree.empty (lt : K → K → Bool) : PSTree K V :=
  ⟨lt, []⟩

/-- `Plane_Scan_Tree::add(k, v)`: inserts an entry (creating the root if
null) and increments the size. -/
def PSTree.add (t : PSTree K V) (k : K) (v : V) : PSTree K V :=
  { t with entries := t.entries ++ [(k, v)] }

/-- `Plane_Scan_Tree::size()`. -/
def PSTree.size (t : PSTree K V) : Nat :=
  t.entries.length

/-- Modelled from the spec: the successor query of the tree internals
(`_Plane_Scan_Tree.h`, not among the available sources). Per spec section
4.1, `minimum_above(x)` returns the entry with the minimal key strictly
greater than `x`, or none if the tree is empty or all keys are `≤ x`;
realised as a linear scan: keep the entries with key above `x`, then take
the comparator-minimum (keys are unique under the documented
precondition, so which of equally-minimal entries wins is immaterial). -/
def minAboveList (lt : K → K → Bool) (x : K) (l : List (K × V)) : Option (K × V) :=
  match l.filter (fun e => lt x e.1) with
  | [] => none
  | e :: es => some (foldlMin (fun a b => lt a.1 b.1) e es)

/-- `Plane_Scan_Tree::minAbove(x)`: returns `NULL` when the root is null
(empty tree), otherwise delegates to the root's successor query. -/
def PSTree.minAbove (t : PSTree K V) (x : K) : Option V :=
  (minAboveList t.less x t.entries).map (fun e => e.2)

/-- `Plane_Scan_Tree::find(k)`: calls `root->leafNode(k)` with no null
check, so on an empty tree it dereferences the null root — undefined
behavior, marked by the outer `none`. On a nonempty tree the leaf lookup
is modelled from the spec as returning the entry whose key is equivalent
to `k` under the comparator, if any. -/
def PSTree.find (t : PSTree K V) (x : K) : Option (Option (K × V)) :=
  match t.entries with
  | [] => none
  | _ :: _ => some (t.entries.find? (fun e => !t.less x e.1 && !t.less e.1 x))

/-- A tree built by a sequence of `add(key, value)` calls starting from
the empty tree. -/
def buildPST (lt : K → K → Bool) (inserts : List (K × V)) : PSTree K V :=
  inserts.foldl (fun t e => t.add e.1 e.2) (PSTree.empty lt)

/-- `std::set::insert` on a set ordered by the strict comparator `lt`,
with the set represented as its sorted element list: the new element is
placed before the first strictly greater element; if an equivalent
element (neither less nor greater) is met, the insertion does nothing. -/
def setInsert (lt : α → α → Bool) (v : α) : List α → List α
  | [] => [v]
  | x :: xs =>
    if lt v x then v :: x :: xs
    else if lt x v then x :: setInsert lt v xs
    else x :: xs

/-- `std::sort` with the strict comparator `lt`, modelled as iterated
ordered insertion. The functor `Less_by_direction_2` is a strict total
order on vertex descriptors (ties broken by descriptor), so the sorted
permutation is unique and any correct sort produces this list. -/
def sortByLt (lt : α → α → Bool) (l : List α) : List α :=
  l.foldl (fun s v => setInsert lt v s) []

/-- The suffix of the ordered set strictly after the position of `v`:
models `it2 = pst.find(v); ++it2;` followed by iteration to `pst.end()`.
Elements before `v`'s position (strictly less than `v`) are skipped, then
the element at `v`'s position is skipped, and the remainder is kept. -/
def setAfter (lt : α → α → Bool) (v : α) : List α → List α
  | [] => []
  | x :: xs => if lt x v then setAfter lt v xs else xs

/-- `std::min_element(first, last, comp)`: none on an empty range,
otherwise the first element no later element is strictly smaller than. -/
def minElement (comp : α → α → Bool) : List α → Option α
  | [] => none
  | x :: xs => some (foldlMin comp x xs)

/-- A linear-scan successor query over a plain list of keys: the minimal
element strictly greater than `x`, or none. This is the reference the
spec checks the tree against ("verified by cross-checking against a
linear scan over all inserted entries"). -/
def linearMinAbove (lt : α → α → Bool) (x : α) (l : List α) : Option α :=
  match l.filter (fun k => lt x k) with
  | [] => none
  | y :: ys => some (foldlMin lt y ys)

/-- The message of the `std::out_of_range` thrown on a degenerate cone
(identical in both functors). -/
def degenerateConeError : String :=
  "degenerate cone: the cw boundary and the ccw boundary must differ"

/-- The sweep loop of `Construct_theta_graph_2::add_edges_in_cone`
(step 3): visit `S` in `D1` order; insert `(p, p)` into the tree; query
`minAbove(p)`; if a result exists and the edge is absent, add it. -/
def thetaVisit : List Nat → PSTree Nat Nat → Graph → Graph
  | [], _, g => g
  | p :: rest, t, g =>
    let t₂ := t.add p p
    thetaVisit rest t₂ (g.maybeAddEdge p (t₂.minAbove p))

/-- `Construct_theta_graph_2::add_edges_in_cone(cwBound, ccwBound, g)`:
degenerate-cone check, comparators `orderD1` (by `ccwBound`) and
`orderD2` (by `cwBound`), sort of all vertex descriptors by `orderD1`,
then the sweep. The bisector-derived `orderMid` of the source is the
tree's `value_compare`, which the spec-modelled tree does not consult
(see `PSTree`), so it is not computed here. -/
def addEdgesInConeTheta (cwBound ccwBound : Direction) (g : Graph) :
    Except String Graph :=
  if dirEq ccwBound cwBound then .error degenerateConeError
  else
    let orderD1 := lessByDirection ccwBound g.points
    let orderD2 := lessByDirection cwBound g.points
    let S := sortByLt orderD1 (List.range g.points.length)
    .ok (thetaVisit S (PSTree.empty orderD2) g)

/-- The sweep loop of `Construct_yao_graph_2::add_edges_in_cone`
(step 3): visit `S` in `D1` order; insert `p` into the ordered set; find
`p`'s position and scan the entries strictly after it with
`std::min_element` under `Less_euclidean_distance`; if a minimum exists
and the edge is absent, add it. -/
def yaoVisit (ltD2 : Nat → Nat → Bool) (pts : List Point) :
    List Nat → List Nat → Graph → Graph
  | [], _, g => g
  | p :: rest, s, g =>
    let s₂ := setInsert ltD2 p s
    let r := minElement (lessEuclideanDistance pts (pts.getD p (0, 0)))
      (setAfter ltD2 p s₂)
    yaoVisit ltD2 pts rest s₂ (g.maybeAddEdge p r)

/-- `Construct_yao_graph_2::add_edges_in_cone(cwBound, ccwBound, g)`. -/
def addEdgesInConeYao (cwBound ccwBound : Direction) (g : Graph) :
    Except String Graph :=
  if dirEq ccwBound cwBound then .error degenerateConeError
  else
    let orderD1 := lessByDirection ccwBound g.points
    let orderD2 := lessByDirection cwBound g.points
    let S := sortByLt orderD1 (List.range g.points.length)
    .ok (yaoVisit orderD2 g.points S [] g)

/-- The (cw, ccw) boundary pairs of the cone loop of `operator()`:
cone `i` is bounded by `rays[i]` and `rays[(i+1) % cone_number]`. -/
def conePairs (rays : List Direction) : List (Direction × Direction) :=
  (List.range rays.length).map
    (fun i => (rays.getD i (1, 0), rays.getD ((i + 1) % rays.length) (1, 0)))

/-- The cone loop of `operator()`: process the cones in order; a thrown
error aborts the loop and the caller observes the graph state at throw
time (the graph is mutated by reference), so the error carries it. -/
def runCones (cone : Direction → Direction → Graph → Except String Graph) :
    List (Direction × Direction) → Graph → Except (String × Graph) Graph
  | [], g => .ok g
  | pr :: rest, g =>
    match cone pr.1 pr.2 g with
    | .error e => .error (e, g)
    | .ok g₂ => runCones cone rest g₂

/-- `Construct_theta_graph_2::operator()(start, end, g)`: add one vertex
per input point in input order, then run the cone loop. -/
def thetaOperator (rays : List Direction) (ps : List Point) (g : Graph) :
    Except (String × Graph) Graph :=
  runCones addEdgesInConeTheta (conePairs rays) (g.addVertices ps)

/-- `Construct_yao_graph_2::operator()(start, end, g)`. -/
def yaoOperator (rays : List Direction) (ps : List Point) (g : Graph) :
    Except (String × Graph) Graph :=
  runCones addEdgesInConeYao (conePairs rays) (g.addVertices ps)

/-- The graph state observed by the caller after a construction run: the
result on success, and the state at throw time on error. -/
def resultGraph : Except (String × Graph) Graph → Graph
  | .ok g => g
  | .error e => e.2

/-- The state of a constructed functor object: the cone count and the
stored ray directions. -/
structure SpannerFunctor where
  coneNumber : Nat
  rays : List Direction
deriving DecidableEq

/-- `Construct_theta_graph_2::Construct_theta_graph_2(k, initial_direction)`:
when `k < 2` the constructor prints a message and calls `std::exit(1)`
(modelled as `none` — fatal, nothing is constructed); otherwise it stores
`k` and the rays produced by the `Compute_cone_boundaries_2` collaborator
`computeCones` (that header is not among the available sources; per spec
section 6 it produces the ordered ray sequence from `(k, initial_direction)`,
so it is passed here as a parameter). -/
def mkTheta (computeCones : Nat → Direction → List Direction)
    (k : Nat) (initialDirection : Direction) : Option SpannerFunctor :=
  if k < 2 then none
  else some ⟨k, computeCones k initialDirection⟩

/-- `Construct_yao_graph_2::Construct_yao_graph_2(k, initial_direction)`:
same shape as the Theta constructor (the member-initialiser presizing of
`rays` is invisible once the collaborator has filled all `k` slots). -/
def mkYao (computeCones : Nat → Direction → List Direction)
    (k : Nat) (initialDirection : Direction) : Option SpannerFunctor :=
  if k < 2 then none
  else some ⟨k, computeCones k initialDirection⟩

/-- Reference per-cone procedure for the Theta variant, following the
spec's words: sweep the remaining vertices in `D1` order while keeping
the list of already visited vertices; at vertex `p`, first count `p` as
visited, then take as candidate the minimum vertex under `D2` strictly
greater than `p` among the visited vertices, computed by a linear scan;
if a candidate exists and the edge is absent, add it. -/
def thetaRef (lt : Nat → Nat → Bool) :
    List Nat → List Nat → Graph → Graph
  | _, [], g => g
  | visited, p :: rest, g =>
    let vis := visited ++ [p]
    thetaRef lt vis rest (g.maybeAddEdge p (linearMinAbove lt p vis))

/-- Reference per-cone procedure for the Yao variant, following the
spec's words: sweep the remaining vertices in `D1` order while keeping
the list of visited vertices; at vertex `p`, first count `p` as visited,
then take as candidates the visited vertices strictly greater than `p`
under `D2`, listed in `D2` order, and as target the Euclidean-nearest
candidate (the first distance-minimum of a linear scan — not the
next-in-order point under `D2`); if a target exists and the edge is
absent, add it. -/
def yaoRef (lt : Nat → Nat → Bool) (pts : List Point) :
    List Nat → List Nat → Graph → Graph
  | _, [], g => g
  | visited, p :: rest, g =>
    let vis := visited ++ [p]
    let cand := (sortByLt lt vis).filter (fun q => lt p q)
    let r := minElement (lessEuclideanDistance pts (pts.getD p (0, 0))) cand
    yaoRef lt pts vis rest (g.maybeAddEdge p r)

/-! ### Generic list helpers -/

/-- Two members of a pairwise-related list are equal or related one way. -/
theorem pairwise_mem_or_eq {R : α → α → Prop} {l : List α} {a b : α}
    (hp : l.Pairwise R) (ha : a ∈ l) (hb : b ∈ l) :
    a = b ∨ R a b ∨ R b a := by
  induction l with
  | nil => cases ha
  | cons x xs ih =>
    rcases List.pairwise_cons.mp hp with ⟨hx, hxs⟩
    rcases List.mem_cons.mp ha with ha1 | ha1 <;>
      rcases List.mem_cons.mp hb with hb1 | hb1
    · exact Or.inl (ha1.trans hb1.symm)
    · exact Or.inr (Or.inl (ha1 ▸ hx b hb1))
    · exact Or.inr (Or.inr (hb1 ▸ hx a ha1))
    · exact ih hxs ha1 hb1

/-- A Boolean is false when its truth is contradictory. -/
theorem bool_false_of_imp {b : Bool} (h : b = true → False) : b = false := by
  cases b
  · rfl
  · exact (h rfl).elim

/-- The fold minimum is among the scanned elements. -/
theorem foldlMin_mem (lt : α → α → Bool) (a : α) (l : List α) :
    foldlMin lt a l ∈ a :: l := by
  induction l generalizing a with
  | nil => simp [foldlMin]
  | cons b l ih =>
    have hstep : foldlMin lt a (b :: l) = foldlMin lt (if lt b a then b else a) l := rfl
    rw [hstep]
    by_cases hba : lt b a = true
    · rw [if_pos hba]
      rcases List.mem_cons.mp (ih b) with h1 | h1
      · rw [h1]; exact List.mem_cons.mpr (Or.inr (List.mem_cons_self b l))
      · exact List.mem_cons.mpr (Or.inr (List.mem_cons.mpr (Or.inr h1)))
    · rw [if_neg hba]
      rcases List.mem_cons.mp (ih a) with h1 | h1
      · rw [h1]; exact List.mem_cons_self a (b :: l)
      · exact List.mem_cons.mpr (Or.inr (List.mem_cons.mpr (Or.inr h1)))

/-- No scanned element is strictly below the fold minimum, for a
comparator that is irreflexive, transitive and negatively transitive
(a strict weak order, as `std::min_element` requires). -/
theorem foldlMin_not_lt (lt : α → α → Bool)
    (hirr : ∀ x, lt x x = false)
    (htrans : ∀ x y z, lt x y = true → lt y z = true → lt x z = true)
    (hneg : ∀ x y z, lt y x = false → lt y z = true → lt x z = true)
    (a : α) (l : List α) :
    ∀ y ∈ a :: l, lt y (foldlMin lt a l) = false := by
  induction l generalizing a with
  | nil =>
    intro y hy
    rcases List.mem_cons.mp hy with h | h
    · subst h; exact hirr y
    · cases h
  | cons b l ih =>
    intro y hy
    have hstep : foldlMin lt a (b :: l) = foldlMin lt (if lt b a then b else a) l := rfl
    rw [hstep]
    by_cases hba : lt b a = true
    · rw [if_pos hba]
      rcases List.mem_cons.mp hy with h1 | h1
      · subst h1
        refine bool_false_of_imp (fun hm => ?_)
        have hbm : lt b (foldlMin lt b l) = true := htrans b y _ hba hm
        have hno := ih b b (List.mem_cons_self b l)
        rw [hno] at hbm; cases hbm
      · rcases List.mem_cons.mp h1 with h2 | h2
        · subst h2; exact ih y y (List.mem_cons_self y l)
        · exact ih b y (List.mem_cons.mpr (Or.inr h2))
    · rw [if_neg hba]
      have hba2 : lt b a = false := bool_false_of_imp hba
      rcases List.mem_cons.mp hy with h1 | h1
      · subst h1; exact ih y y (List.mem_cons_self y l)
      · rcases List.mem_cons.mp h1 with h2 | h2
        · subst h2
          refine bool_false_of_imp (fun hm => ?_)
          have ham : lt a (foldlMin lt a l) = true := hneg a y _ hba2 hm
          have hno := ih a a (List.mem_cons_self a l)
          rw [hno] at ham; cases ham
        · exact ih a y (List.mem_cons.mpr (Or.inr h2))

/-- No scanned element is strictly below the fold minimum, for an
asymmetric transitive comparator and a scanned list whose elements are
pairwise comparable (the unique-ordering precondition of the tree). -/
theorem foldlMin_not_lt_of_pairwise (lt : α → α → Bool)
    (htrans : ∀ x y z, lt x y = true → lt y z = true → lt x z = true)
    (hasym : ∀ x y, lt x y = true → lt y x = true → False)
    (a : α) (l : List α)
    (hp : (a :: l).Pairwise (fun x y => lt x y = true ∨ lt y x = true)) :
    ∀ y ∈ a :: l, lt y (foldlMin lt a l) = false := by
  induction l generalizing a with
  | nil =>
    intro y hy
    rcases List.mem_cons.mp hy with h | h
    · subst h
      exact bool_false_of_imp (fun hm => hasym y y hm hm)
    · cases h
  | cons b l ih =>
    intro y hy
    have hstep : foldlMin lt a (b :: l) = foldlMin lt (if lt b a then b else a) l := rfl
    rw [hstep]
    rcases List.pairwise_cons.mp hp with ⟨hahd, hbl⟩
    by_cases hba : lt b a = true
    · rw [if_pos hba]
      rcases List.mem_cons.mp hy with h1 | h1
      · subst h1
        refine bool_false_of_imp (fun hm => ?_)
        have hbm : lt b (foldlMin lt b l) = true := htrans b y _ hba hm
        have hno := ih b hbl b (List.mem_cons_self b l)
        rw [hno] at hbm; cases hbm
      · rcases List.mem_cons.mp h1 with h2 | h2
        · subst h2; exact ih y hbl y (List.mem_cons_self y l)
        · exact ih b hbl y (List.mem_cons.mpr (Or.inr h2))
    · rw [if_neg hba]
      have hab : lt a b = true := by
        rcases hahd b (List.mem_cons_self b l) with h | h
        · exact h
        · exact absurd h hba
      have hpa : (a :: l).Pairwise (fun x y => lt x y = true ∨ lt y x = true) :=
        List.Pairwise.sublist (List.Sublist.cons₂ a (List.sublist_cons_self b l)) hp
      rcases List.mem_cons.mp hy with h1 | h1
      · subst h1; exact ih y hpa y (List.mem_cons_self y l)
      · rcases List.mem_cons.mp h1 with h2 | h2
        · subst h2
          refine bool_false_of_imp (fun hm => ?_)
          have ham : lt a (foldlMin lt a l) = true := htrans a y _ hab hm
          have hno := ih a hpa a (List.mem_cons_self a l)
          rw [hno] at ham; cases ham
        · exact ih a hpa y (List.mem_cons.mpr (Or.inr h2))

/-! ### Successor-query lemmas -/

/-- The successor query returns none exactly when no entry has a key
strictly above the threshold (in particular on an empty entry list). -/
theorem minAboveList_eq_none_iff (lt : K → K → Bool) (x : K) (l : List (K × V)) :
    minAboveList lt x l = none ↔ ∀ e ∈ l, lt x e.1 = false := by
  unfold minAboveList
  cases h : l.filter (fun e => lt x e.1) with
  | nil =>
    simp only [true_iff]
    intro e he
    have := List.filter_eq_nil_iff.mp h e he
    exact bool_false_of_imp this
  | cons f fs =>
    simp only [reduceCtorEq, false_iff, not_forall]
    have hf : f ∈ l.filter (fun e => lt x e.1) := h ▸ List.mem_cons_self f fs
    rcases List.mem_filter.mp hf with ⟨hmem, hlt⟩
    exact ⟨f, hmem, by simp [hlt]⟩

/-- A successful successor query returns an inserted entry whose key is
strictly above the threshold. -/
theorem minAboveList_some_mem {lt : K → K → Bool} {x : K} {l : List (K × V)}
    {e : K × V} (h : minAboveList lt x l = some e) :
    e ∈ l ∧ lt x e.1 = true := by
  unfold minAboveList at h
  cases hf : l.filter (fun e => lt x e.1) with
  | nil => rw [hf] at h; cases h
  | cons f fs =>
    rw [hf] at h
    have he : e = foldlMin (fun a b => lt a.1 b.1) f fs := by
      injection h with h2; exact h2.symm
    have hmem : e ∈ f :: fs := he ▸ foldlMin_mem _ f fs
    have : e ∈ l.filter (fun e => lt x e.1) := hf ▸ hmem
    exact ⟨(List.mem_filter.mp this).1, (List.mem_filter.mp this).2⟩

/-- Under the unique-ordering precondition, the returned key is the
minimum among the inserted keys strictly above the threshold. -/
theorem minAboveList_some_min {lt : K → K → Bool} {x : K} {l : List (K × V)}
    {e : K × V}
    (htrans : ∀ a b c, lt a b = true → lt b c = true → lt a c = true)
    (hasym : ∀ a b, lt a b = true → lt b a = true → False)
    (hp : l.Pairwise (fun a b => lt a.1 b.1 = true ∨ lt b.1 a.1 = true))
    (h : minAboveList lt x l = some e) :
    ∀ f ∈ l, lt x f.1 = true → lt f.1 e.1 = false := by
  intro f hf hxf
  unfold minAboveList at h
  cases hfl : l.filter (fun e => lt x e.1) with
  | nil =>
    rw [hfl] at h; cases h
  | cons c cs =>
    rw [hfl] at h
    have he : e = foldlMin (fun a b => lt a.1 b.1) c cs := by
      injection h with h2; exact h2.symm
    have hmemf : f ∈ c :: cs := by
      rw [← hfl]; exact List.mem_filter.mpr ⟨hf, hxf⟩
    have hpf : (c :: cs).Pairwise
        (fun a b : K × V => lt a.1 b.1 = true ∨ lt b.1 a.1 = true) := by
      rw [← hfl]; exact List.Pairwise.sublist (List.filter_sublist l) hp
    have := foldlMin_not_lt_of_pairwise (fun a b : K × V => lt a.1 b.1)
      (fun a b c h1 h2 => htrans a.1 b.1 c.1 h1 h2)
      (fun a b h1 h2 => hasym a.1 b.1 h1 h2) c cs hpf f hmemf
    rw [he]; exact this

/-- Under the unique-ordering precondition, an entry whose key is above
the threshold and minimal among such keys is the query's answer. -/
theorem minAboveList_eq_some_of {lt : K → K → Bool} {x : K} {l : List (K × V)}
    {e : K × V}
    (htrans : ∀ a b c, lt a b = true → lt b c = true → lt a c = true)
    (hasym : ∀ a b, lt a b = true → lt b a = true → False)
    (hp : l.Pairwise (fun a b => lt a.1 b.1 = true ∨ lt b.1 a.1 = true))
    (hmem : e ∈ l) (hx : lt x e.1 = true)
    (hmin : ∀ f ∈ l, lt x f.1 = true → lt f.1 e.1 = false) :
    minAboveList lt x l = some e := by
  have hef : e ∈ l.filter (fun f => lt x f.1) := List.mem_filter.mpr ⟨hmem, hx⟩
  unfold minAboveList
  cases hfl : l.filter (fun f => lt x f.1) with
  | nil => rw [hfl] at hef; cases hef
  | cons c cs =>
    have hpf : (c :: cs).Pairwise
        (fun a b : K × V => lt a.1 b.1 = true ∨ lt b.1 a.1 = true) := by
      rw [← hfl]; exact List.Pairwise.sublist (List.filter_sublist l) hp
    set m := foldlMin (fun a b : K × V => lt a.1 b.1) c cs with hm
    have hmmem : m ∈ c :: cs := foldlMin_mem _ c cs
    have hmemL : m ∈ l.filter (fun f => lt x f.1) := hfl ▸ hmmem
    rcases List.mem_filter.mp hmemL with ⟨hml, hmx⟩
    have hmmin : ∀ f ∈ c :: cs, lt f.1 m.1 = false :=
      foldlMin_not_lt_of_pairwise (fun a b : K × V => lt a.1 b.1)
        (fun a b c h1 h2 => htrans a.1 b.1 c.1 h1 h2)
        (fun a b h1 h2 => hasym a.1 b.1 h1 h2) c cs hpf
    have heC : e ∈ c :: cs := hfl ▸ hef
    have hme : lt m.1 e.1 = false := hmin m hml hmx
    have hem : lt e.1 m.1 = false := hmmin e heC
    rcases pairwise_mem_or_eq hpf heC hmmem with heq | hr
    · show some (foldlMin (fun a b : K × V => lt a.1 b.1) c cs) = some e
      rw [← hm, heq]
    · exfalso
      rcases hr with (h1 | h1) | (h1 | h1)
      · rw [h1] at hem; cases hem
      · rw [h1] at hme; cases hme
      · rw [h1] at hme; cases hme
      · rw [h1] at hem; cases hem

/-- The fold minimum over duplicated (p, p) pairs, compared on first
components, duplicates the fold minimum over the underlying list. -/
theorem foldlMin_map_dup (lt : α → α → Bool) (y : α) (ys : List α) :
    foldlMin (fun a b : α × α => lt a.1 b.1) (y, y) (ys.map (fun p => (p, p))) =
      (foldlMin lt y ys, foldlMin lt y ys) := by
  induction ys generalizing y with
  | nil => rfl
  | cons z zs ih =>
    show foldlMin (fun a b : α × α => lt a.1 b.1)
        (if lt z y then (z, z) else (y, y)) (zs.map (fun p => (p, p))) = _
    have hr : foldlMin lt y (z :: zs) = foldlMin lt (if lt z y then z else y) zs := rfl
    by_cases hzy : lt z y = true
    · rw [hr, if_pos hzy, if_pos hzy]; exact ih z
    · rw [hr, if_neg hzy, if_neg hzy]; exact ih y

/-- The tree's successor query over duplicated (p, p) entries agrees with
the plain linear-scan successor over the underlying vertex list. -/
theorem minAboveList_map_dup (lt : α → α → Bool) (x : α) (l : List α) :
    minAboveList lt x (l.map (fun p => (p, p))) =
      (linearMinAbove lt x l).map (fun r => (r, r)) := by
  unfold minAboveList linearMinAbove
  rw [List.filter_map]
  have hcomp : ((fun e : α × α => lt x e.1) ∘ fun p => (p, p)) =
      (fun k => lt x k) := rfl
  rw [hcomp]
  cases h : l.filter (fun k => lt x k) with
  | nil => simp
  | cons y ys =>
    show some (foldlMin (fun a b : α × α => lt a.1 b.1) (y, y)
        (ys.map (fun p => (p, p)))) =
      (some (foldlMin lt y ys)).map (fun r => (r, r))
    rw [foldlMin_map_dup]
    rfl

/-- A successful linear-scan successor query returns a scanned element
strictly above the threshold. -/
theorem linearMinAbove_some_mem {lt : α → α → Bool} {x r : α} {l : List α}
    (h : linearMinAbove lt x l = some r) :
    r ∈ l ∧ lt x r = true := by
  unfold linearMinAbove at h
  cases hf : l.filter (fun k => lt x k) with
  | nil => rw [hf] at h; cases h
  | cons y ys =>
    rw [hf] at h
    have hr : r = foldlMin lt y ys := by injection h with h2; exact h2.symm
    have hmem : r ∈ y :: ys := hr ▸ foldlMin_mem lt y ys
    have : r ∈ l.filter (fun k => lt x k) := hf ▸ hmem
    exact ⟨(List.mem_filter.mp this).1, (List.mem_filter.mp this).2⟩

/-! ### Comparator facts -/

/-- `Less_by_direction_2` is irreflexive. -/
theorem lessByDirection_irrefl (d : Direction) (pts : List Point) (u : Nat) :
    lessByDirection d pts u u = false := by
  simp [lessByDirection]

/-- `Less_by_direction_2` is asymmetric. -/
theorem lessByDirection_asymm {d : Direction} {pts : List Point} {u v : Nat}
    (h1 : lessByDirection d pts u v = true)
    (h2 : lessByDirection d pts v u = true) : False := by
  simp only [lessByDirection, Bool.or_eq_true, Bool.and_eq_true,
    decide_eq_true_eq, beq_iff_eq] at h1 h2
  omega

/-- `Less_by_direction_2` is transitive. -/
theorem lessByDirection_trans {d : Direction} {pts : List Point} {u v w : Nat}
    (h1 : lessByDirection d pts u v = true)
    (h2 : lessByDirection d pts v w = true) :
    lessByDirection d pts u w = true := by
  simp only [lessByDirection, Bool.or_eq_true, Bool.and_eq_true,
    decide_eq_true_eq, beq_iff_eq] at h1 h2 ⊢
  omega

/-- `Less_by_direction_2` is negatively transitive. -/
theorem lessByDirection_neg_trans {d : Direction} {pts : List Point} {u v w : Nat}
    (h1 : lessByDirection d pts v u = false)
    (h2 : lessByDirection d pts v w = true) :
    lessByDirection d pts u w = true := by
  simp only [lessByDirection, Bool.or_eq_true, Bool.and_eq_true,
    decide_eq_true_eq, beq_iff_eq, Bool.or_eq_false_iff,
    Bool.and_eq_false_iff, decide_eq_false_iff_not, beq_eq_false_iff_ne,
    ne_eq] at h1 h2 ⊢
  rcases h1 with ⟨ha, hb⟩
  rcases hb with hb | hb
  · omega
  · omega

/-- Two mutually incomparable vertices under `Less_by_direction_2` are the
same vertex (the descriptor tie-break makes the order total). -/
theorem lessByDirection_eq_of_incomp {d : Direction} {pts : List Point} {u v : Nat}
    (h1 : lessByDirection d pts u v = false)
    (h2 : lessByDirection d pts v u = false) : u = v := by
  simp only [lessByDirection, Bool.or_eq_false_iff, Bool.and_eq_false_iff,
    decide_eq_false_iff_not, beq_eq_false_iff_ne, ne_eq] at h1 h2
  rcases h1 with ⟨ha, hb⟩
  rcases h2 with ⟨hc, hd⟩
  rcases hb with hb | hb <;> rcases hd with hd | hd <;> omega

/-- `Less_euclidean_distance` is irreflexive. -/
theorem lessEuclideanDistance_irrefl (pts : List Point) (p : Point) (i : Nat) :
    lessEuclideanDistance pts p i i = false := by
  simp [lessEuclideanDistance, hasSmallerDistanceToPoint]

/-- `Less_euclidean_distance` is transitive. -/
theorem lessEuclideanDistance_trans {pts : List Point} {p : Point} {i j k : Nat}
    (h1 : lessEuclideanDistance pts p i j = true)
    (h2 : lessEuclideanDistance pts p j k = true) :
    lessEuclideanDistance pts p i k = true := by
  simp only [lessEuclideanDistance, hasSmallerDistanceToPoint,
    decide_eq_true_eq] at h1 h2 ⊢
  omega

/-- `Less_euclidean_distance` is negatively transitive. -/
theorem lessEuclideanDistance_neg_trans {pts : List Point} {p : Point} {i j k : Nat}
    (h1 : lessEuclideanDistance pts p j i = false)
    (h2 : lessEuclideanDistance pts p j k = true) :
    lessEuclideanDistance pts p i k = true := by
  simp only [lessEuclideanDistance, hasSmallerDistanceToPoint,
    decide_eq_true_eq, decide_eq_false_iff_not, not_lt] at h1 h2 ⊢
  omega

/-! ### Ordered-set lemmas -/

/-- Every element of an insertion result is the new element or an old one. -/
theorem setInsert_subset {lt : α → α → Bool} {v : α} {s : List α} :
    setInsert lt v s ⊆ v :: s := by
  intro c hc
  induction s with
  | nil =>
    simp only [setInsert] at hc
    exact List.mem_cons.mpr (Or.inl (List.mem_singleton.mp hc))
  | cons w ws ihw =>
    simp only [setInsert] at hc
    by_cases hvw : lt v w = true
    · rw [if_pos hvw] at hc
      rcases List.mem_cons.mp hc with h1 | h1
      · exact List.mem_cons.mpr (Or.inl h1)
      · exact List.mem_cons.mpr (Or.inr h1)
    · rw [if_neg hvw] at hc
      by_cases hwv : lt w v = true
      · rw [if_pos hwv] at hc
        rcases List.mem_cons.mp hc with h1 | h1
        · exact List.mem_cons.mpr (Or.inr (List.mem_cons.mpr (Or.inl h1)))
        · rcases List.mem_cons.mp (ihw h1) with h2 | h2
          · exact List.mem_cons.mpr (Or.inl h2)
          · exact List.mem_cons.mpr (Or.inr (List.mem_cons.mpr (Or.inr h2)))
      · rw [if_neg hwv] at hc
        rcases List.mem_cons.mp hc with h1 | h1
        · exact List.mem_cons.mpr (Or.inr (List.mem_cons.mpr (Or.inl h1)))
        · exact List.mem_cons.mpr (Or.inr (List.mem_cons.mpr (Or.inr h1)))

/-- Inserting preserves strict sortedness (for a transitive comparator). -/
theorem setInsert_pairwise {lt : α → α → Bool}
    (htrans : ∀ x y z, lt x y = true → lt y z = true → lt x z = true)
    (v : α) {s : List α}
    (hs : s.Pairwise (fun a b => lt a b = true)) :
    (setInsert lt v s).Pairwise (fun a b => lt a b = true) := by
  induction s with
  | nil => simp [setInsert]
  | cons x xs ih =>
    rcases List.pairwise_cons.mp hs with ⟨hx, hxs⟩
    unfold setInsert
    by_cases hvx : lt v x = true
    · rw [if_pos hvx]
      refine List.pairwise_cons.mpr ⟨?_, hs⟩
      intro b hb
      rcases List.mem_cons.mp hb with hb1 | hb1
      · rw [hb1]; exact hvx
      · exact htrans v x b hvx (hx b hb1)
    · rw [if_neg hvx]
      by_cases hxv : lt x v = true
      · rw [if_pos hxv]
        refine List.pairwise_cons.mpr ⟨?_, ih hxs⟩
        intro b hb
        by_cases hbv : b = v
        · rw [hbv]; exact hxv
        · have hbmem : b ∈ v :: xs := setInsert_subset hb
          rcases List.mem_cons.mp hbmem with h1 | h1
          · exact absurd h1 hbv
          · exact hx b h1
      · rw [if_neg hxv]
        exact hs

/-- When mutual incomparability implies equality (a total strict
comparator), the inserted element is a member of the insertion result. -/
theorem mem_setInsert_self {lt : α → α → Bool}
    (heq : ∀ a b, lt a b = false → lt b a = false → a = b)
    (v : α) (s : List α) :
    v ∈ setInsert lt v s := by
  induction s with
  | nil => simp [setInsert]
  | cons x xs ih =>
    unfold setInsert
    by_cases hvx : lt v x = true
    · rw [if_pos hvx]; exact List.mem_cons_self v _
    · rw [if_neg hvx]
      by_cases hxv : lt x v = true
      · rw [if_pos hxv]; exact List.mem_cons.mpr (Or.inr ih)
      · rw [if_neg hxv]
        have : x = v :=
          heq x v (bool_false_of_imp hxv) (bool_false_of_imp hvx)
        rw [this]; exact List.mem_cons_self v xs

/-- On a sorted set containing `v`, the suffix strictly after `v`'s
position is exactly the set of elements strictly greater than `v`. -/
theorem setAfter_eq_filter {lt : α → α → Bool}
    (hasym : ∀ x y, lt x y = true → lt y x = true → False)
    {v : α} {s : List α}
    (hs : s.Pairwise (fun a b => lt a b = true)) (hv : v ∈ s) :
    setAfter lt v s = s.filter (fun q => lt v q) := by
  induction s with
  | nil => cases hv
  | cons x xs ih =>
    rcases List.pairwise_cons.mp hs with ⟨hx, hxs⟩
    unfold setAfter
    by_cases hxv : lt x v = true
    · rw [if_pos hxv]
      have hvnex : v ≠ x := by
        intro hvx
        rw [hvx] at hxv
        exact hasym x x hxv hxv
      have hvxs : v ∈ xs := by
        rcases List.mem_cons.mp hv with h1 | h1
        · exact absurd h1 hvnex
        · exact h1
      have hfx : lt v x = false :=
        bool_false_of_imp (fun hvx => hasym x v hxv hvx)
      rw [List.filter_cons_of_neg (by simp [hfx]), ih hxs hvxs]
    · rw [if_neg hxv]
      have hxev : x = v := by
        rcases List.mem_cons.mp hv with h1 | h1
        · exact h1.symm
        · exact absurd (hx v h1) hxv
      subst hxev
      have hvv : lt x x = false :=
        bool_false_of_imp (fun hvx => hasym x x hvx hvx)
      rw [List.filter_cons_of_neg (by simp [hvv])]
      exact (List.filter_eq_self.mpr (fun q hq => hx q hq)).symm

/-- Every element of the post-position suffix is strictly greater than
the probe element (even if the probe is absent), on a sorted set. -/
theorem setAfter_mem_gt {lt : α → α → Bool}
    (htrans : ∀ x y z, lt x y = true → lt y z = true → lt x z = true)
    (heq : ∀ a b, lt a b = false → lt b a = false → a = b)
    {v q : α} {s : List α}
    (hs : s.Pairwise (fun a b => lt a b = true))
    (hq : q ∈ setAfter lt v s) :
    lt v q = true := by
  induction s with
  | nil => cases hq
  | cons x xs ih =>
    rcases List.pairwise_cons.mp hs with ⟨hx, hxs⟩
    unfold setAfter at hq
    by_cases hxv : lt x v = true
    · rw [if_pos hxv] at hq
      exact ih hxs hq
    · rw [if_neg hxv] at hq
      have hxq : lt x q = true := hx q hq
      by_cases hvx : lt v x = true
      · exact htrans v x q hvx hxq
      · have : x = v :=
          heq x v (bool_false_of_imp hxv) (bool_false_of_imp hvx)
        rw [← this]; exact hxq

/-- Appending one element to the input performs one more insertion. -/
theorem sortByLt_append_singleton (lt : α → α → Bool) (l : List α) (p : α) :
    sortByLt lt (l ++ [p]) = setInsert lt p (sortByLt lt l) := by
  unfold sortByLt
  rw [List.foldl_append]
  rfl

/-- The simulated `std::sort` output is strictly sorted. -/
theorem sortByLt_pairwise {lt : α → α → Bool}
    (htrans : ∀ x y z, lt x y = true → lt y z = true → lt x z = true)
    (l : List α) :
    (sortByLt lt l).Pairwise (fun a b => lt a b = true) := by
  unfold sortByLt
  induction l using List.reverseRecOn with
  | nil => exact List.Pairwise.nil
  | append_singleton xs x ih =>
    rw [List.foldl_append]
    exact setInsert_pairwise htrans x ih

/-! ### Sweep refinement lemmas -/

/-- The Theta sweep over the spec-modelled tree equals the reference
sweep that keeps the visited vertices and scans them linearly: the tree
state after visiting a prefix is exactly the (p, p) entries of that
prefix, and the tree query is the linear successor scan. -/
theorem thetaVisit_eq_ref (lt : Nat → Nat → Bool) :
    ∀ (todo visited : List Nat) (g : Graph),
      thetaVisit todo ⟨lt, visited.map (fun q => (q, q))⟩ g =
        thetaRef lt visited todo g := by
  intro todo
  induction todo with
  | nil => intro visited g; rfl
  | cons p rest ih =>
    intro visited g
    simp only [thetaVisit, thetaRef]
    have hadd : PSTree.add ⟨lt, visited.map (fun q => (q, q))⟩ p p =
        ⟨lt, (visited ++ [p]).map (fun q => (q, q))⟩ := by
      simp [PSTree.add]
    rw [hadd]
    have hmin : PSTree.minAbove ⟨lt, (visited ++ [p]).map (fun q => (q, q))⟩ p =
        linearMinAbove lt p (visited ++ [p]) := by
      unfold PSTree.minAbove
      show (minAboveList lt p ((visited ++ [p]).map (fun q => (q, q)))).map
        (fun e => e.2) = _
      rw [minAboveList_map_dup]
      cases linearMinAbove lt p (visited ++ [p]) <;> rfl
    rw [hmin]
    exact ih (visited ++ [p]) _

/-- The Yao sweep over the simulated `std::set` equals the reference
sweep: the set state after visiting a prefix is the sorted list of that
prefix, and the post-position suffix is the strictly-greater filter. -/
theorem yaoVisit_eq_ref (lt : Nat → Nat → Bool) (pts : List Point)
    (htrans : ∀ x y z, lt x y = true → lt y z = true → lt x z = true)
    (hasym : ∀ x y, lt x y = true → lt y x = true → False)
    (heq : ∀ a b, lt a b = false → lt b a = false → a = b) :
    ∀ (todo visited : List Nat) (g : Graph),
      yaoVisit lt pts todo (sortByLt lt visited) g =
        yaoRef lt pts visited todo g := by
  intro todo
  induction todo with
  | nil => intro visited g; rfl
  | cons p rest ih =>
    intro visited g
    simp only [yaoVisit, yaoRef]
    have hs2 : setInsert lt p (sortByLt lt visited) = sortByLt lt (visited ++ [p]) :=
      (sortByLt_append_singleton lt visited p).symm
    have hsorted : (sortByLt lt (visited ++ [p])).Pairwise
        (fun a b => lt a b = true) := sortByLt_pairwise htrans _
    have hvmem : p ∈ sortByLt lt (visited ++ [p]) := by
      rw [← hs2]; exact mem_setInsert_self heq p _
    have hafter : setAfter lt p (sortByLt lt (visited ++ [p])) =
        (sortByLt lt (visited ++ [p])).filter (fun q => lt p q) :=
      setAfter_eq_filter hasym hsorted hvmem
    rw [hs2, hafter]
    exact ih (visited ++ [p]) _

/-! ### Graph evolution lemmas -/

/-- A successful `std::min_element` call returns a scanned element. -/
theorem minElement_mem {comp : α → α → Bool} {l : List α} {r : α}
    (h : minElement comp l = some r) : r ∈ l := by
  cases l with
  | nil => cases h
  | cons x xs =>
    have hr : r = foldlMin comp x xs := by
      simp only [minElement] at h
      injection h with h2; exact h2.symm
    exact hr ▸ foldlMin_mem comp x xs

/-- A successful `std::min_element` call returns a minimum: no scanned
element compares strictly below it (for a strict weak order). -/
theorem minElement_min {comp : α → α → Bool} {l : List α} {r : α}
    (hirr : ∀ x, comp x x = false)
    (htrans : ∀ x y z, comp x y = true → comp y z = true → comp x z = true)
    (hneg : ∀ x y z, comp y x = false → comp y z = true → comp x z = true)
    (h : minElement comp l = some r) :
    ∀ y ∈ l, comp y r = false := by
  cases l with
  | nil => cases h
  | cons x xs =>
    have hr : r = foldlMin comp x xs := by
      simp only [minElement] at h
      injection h with h2; exact h2.symm
    rw [hr]
    exact foldlMin_not_lt comp hirr htrans hneg x xs

/-- Guarded edge insertion keeps the vertex list unchanged. -/
theorem maybeAddEdge_points (g : Graph) (p : Nat) (r : Option Nat) :
    (g.maybeAddEdge p r).points = g.points := by
  cases r with
  | none => rfl
  | some t =>
    show (if g.edgeExists p t then g else g.addEdge p t).points = g.points
    split
    · rfl
    · rfl

/-- Guarded edge insertion only appends to the edge list. -/
theorem maybeAddEdge_edges (g : Graph) (p : Nat) (r : Option Nat) :
    ∃ l, (g.maybeAddEdge p r).edges = g.edges ++ l := by
  cases r with
  | none => exact ⟨[], by simp [Graph.maybeAddEdge]⟩
  | some t =>
    show ∃ l, (if g.edgeExists p t then g else g.addEdge p t).edges = g.edges ++ l
    split
    · exact ⟨[], by simp⟩
    · exact ⟨[(p, t)], rfl⟩

/-- The Theta sweep keeps the vertex list and only appends edges. -/
theorem thetaVisit_ext : ∀ (todo : List Nat) (t : PSTree Nat Nat) (g : Graph),
    (thetaVisit todo t g).points = g.points ∧
      ∃ l, (thetaVisit todo t g).edges = g.edges ++ l := by
  intro todo
  induction todo with
  | nil => intro t g; exact ⟨rfl, [], by simp [thetaVisit]⟩
  | cons p rest ih =>
    intro t g
    simp only [thetaVisit]
    rcases ih (t.add p p) (g.maybeAddEdge p ((t.add p p).minAbove p)) with ⟨hp, l, hl⟩
    refine ⟨hp.trans (maybeAddEdge_points g p _), ?_⟩
    rcases maybeAddEdge_edges g p ((t.add p p).minAbove p) with ⟨l2, hl2⟩
    exact ⟨l2 ++ l, by rw [hl, hl2, List.append_assoc]⟩

/-- The Yao sweep keeps the vertex list and only appends edges. -/
theorem yaoVisit_ext (lt : Nat → Nat → Bool) (pts : List Point) :
    ∀ (todo s : List Nat) (g : Graph),
    (yaoVisit lt pts todo s g).points = g.points ∧
      ∃ l, (yaoVisit lt pts todo s g).edges = g.edges ++ l := by
  intro todo
  induction todo with
  | nil => intro s g; exact ⟨rfl, [], by simp [yaoVisit]⟩
  | cons p rest ih =>
    intro s g
    simp only [yaoVisit]
    rcases ih (setInsert lt p s) (g.maybeAddEdge p _) with ⟨hp, l, hl⟩
    refine ⟨hp.trans (maybeAddEdge_points g p _), ?_⟩
    rcases maybeAddEdge_edges g p (minElement
      (lessEuclideanDistance pts (pts.getD p (0, 0)))
      (setAfter lt p (setInsert lt p s))) with ⟨l2, hl2⟩
    exact ⟨l2 ++ l, by rw [hl, hl2, List.append_assoc]⟩

/-- A successful Theta cone run keeps the vertices and appends edges. -/
theorem addEdgesInConeTheta_ok {cw ccw : Direction} {g g₂ : Graph}
    (h : addEdgesInConeTheta cw ccw g = .ok g₂) :
    g₂.points = g.points ∧ ∃ l, g₂.edges = g.edges ++ l := by
  unfold addEdgesInConeTheta at h
  by_cases hdeg : dirEq ccw cw = true
  · rw [if_pos hdeg] at h; cases h
  · rw [if_neg hdeg] at h
    have hg : g₂ = thetaVisit
        (sortByLt (lessByDirection ccw g.points) (List.range g.points.length))
        (PSTree.empty (lessByDirection cw g.points)) g := by
      injection h with h2; exact h2.symm
    rw [hg]
    exact thetaVisit_ext _ _ g

/-- A successful Yao cone run keeps the vertices and appends edges. -/
theorem addEdgesInConeYao_ok {cw ccw : Direction} {g g₂ : Graph}
    (h : addEdgesInConeYao cw ccw g = .ok g₂) :
    g₂.points = g.points ∧ ∃ l, g₂.edges = g.edges ++ l := by
  unfold addEdgesInConeYao at h
  by_cases hdeg : dirEq ccw cw = true
  · rw [if_pos hdeg] at h; cases h
  · rw [if_neg hdeg] at h
    have hg : g₂ = yaoVisit (lessByDirection cw g.points) g.points
        (sortByLt (lessByDirection ccw g.points) (List.range g.points.length))
        [] g := by
      injection h with h2; exact h2.symm
    rw [hg]
    exact yaoVisit_ext _ _ _ _ g

/-- The cone loop keeps the vertices and appends edges, on the graph the
caller observes (success value or state at throw time). -/
theorem runCones_ext (cone : Direction → Direction → Graph → Except String Graph)
    (hc : ∀ cw ccw g g₂, cone cw ccw g = .ok g₂ →
      g₂.points = g.points ∧ ∃ l, g₂.edges = g.edges ++ l) :
    ∀ (pairs : List (Direction × Direction)) (g : Graph),
      (resultGraph (runCones cone pairs g)).points = g.points ∧
        ∃ l, (resultGraph (runCones cone pairs g)).edges = g.edges ++ l := by
  intro pairs
  induction pairs with
  | nil => intro g; exact ⟨rfl, [], by simp [runCones, resultGraph]⟩
  | cons pr rest ih =>
    intro g
    simp only [runCones]
    cases hcall : cone pr.1 pr.2 g with
    | error e => exact ⟨rfl, [], by simp [resultGraph]⟩
    | ok g₂ =>
      rcases hc pr.1 pr.2 g g₂ hcall with ⟨hp, l1, hl1⟩
      rcases ih g₂ with ⟨hp2, l2, hl2⟩
      exact ⟨hp2.trans hp, l1 ++ l2, by rw [hl2, hl1, List.append_assoc]⟩

/-- The cone loop preserves any property that every successful cone run
preserves (the error case returns the graph unchanged). -/
theorem runCones_preserve (cone : Direction → Direction → Graph → Except String Graph)
    (P : Graph → Prop)
    (hc : ∀ cw ccw g g₂, cone cw ccw g = .ok g₂ → P g → P g₂) :
    ∀ (pairs : List (Direction × Direction)) (g : Graph),
      P g → P (resultGraph (runCones cone pairs g)) := by
  intro pairs
  induction pairs with
  | nil => intro g hg; exact hg
  | cons pr rest ih =>
    intro g hg
    simp only [runCones]
    cases hcall : cone pr.1 pr.2 g with
    | error e => exact hg
    | ok g₂ => exact ih g₂ (hc pr.1 pr.2 g g₂ hcall hg)

/-! ### Duplicate-freedom and self-loop lemmas -/

/-- A negated Boolean is true exactly when the Boolean is false. -/
theorem bool_not_true {b : Bool} (h : (!b) = true) : b = false := by
  cases b
  · rfl
  · cases h

/-- Converse direction of `bool_not_true`. -/
theorem bool_not_of_false {b : Bool} (h : b = false) : (!b) = true := by
  rw [h]; rfl

/-- Appending an edge absent as an unordered pair keeps duplicate freedom. -/
theorem dupFreeEdges_append {l : List (Nat × Nat)} {u v : Nat}
    (hl : dupFreeEdges l = true)
    (habs : l.any (fun e => pairClash e (u, v)) = false) :
    dupFreeEdges (l ++ [(u, v)]) = true := by
  induction l with
  | nil => rfl
  | cons e rest ih =>
    simp only [dupFreeEdges, Bool.and_eq_true] at hl
    rcases hl with ⟨hl1, hl2⟩
    have hl1f : rest.any (pairClash e) = false := bool_not_true hl1
    simp only [List.any_cons, Bool.or_eq_false_iff] at habs
    rcases habs with ⟨habs1, habs2⟩
    show dupFreeEdges (e :: (rest ++ [(u, v)])) = true
    simp only [dupFreeEdges, Bool.and_eq_true]
    refine ⟨bool_not_of_false ?_, ih hl2 habs2⟩
    rw [List.any_append]
    simp only [List.any_cons, List.any_nil, Bool.or_false]
    rw [hl1f, habs1]
    rfl

/-- Guarded edge insertion preserves duplicate freedom of the edge list. -/
theorem dupFree_maybeAddEdge (g : Graph) (p : Nat) (r : Option Nat)
    (h : dupFreeEdges g.edges = true) :
    dupFreeEdges (g.maybeAddEdge p r).edges = true := by
  cases r with
  | none => exact h
  | some t =>
    show dupFreeEdges (if g.edgeExists p t then g else g.addEdge p t).edges = true
    by_cases hex : g.edgeExists p t = true
    · rw [if_pos hex]; exact h
    · rw [if_neg hex]
      exact dupFreeEdges_append h (bool_false_of_imp hex)

/-- The Theta sweep preserves duplicate freedom. -/
theorem thetaVisit_dupFree : ∀ (todo : List Nat) (t : PSTree Nat Nat) (g : Graph),
    dupFreeEdges g.edges = true → dupFreeEdges (thetaVisit todo t g).edges = true := by
  intro todo
  induction todo with
  | nil => intro t g h; exact h
  | cons p rest ih =>
    intro t g h
    simp only [thetaVisit]
    exact ih _ _ (dupFree_maybeAddEdge g p _ h)

/-- The Yao sweep preserves duplicate freedom. -/
theorem yaoVisit_dupFree (lt : Nat → Nat → Bool) (pts : List Point) :
    ∀ (todo s : List Nat) (g : Graph),
    dupFreeEdges g.edges = true →
      dupFreeEdges (yaoVisit lt pts todo s g).edges = true := by
  intro todo
  induction todo with
  | nil => intro s g h; exact h
  | cons p rest ih =>
    intro s g h
    simp only [yaoVisit]
    exact ih _ _ (dupFree_maybeAddEdge g p _ h)

/-- Appending a non-loop edge keeps the edge list loop-free. -/
theorem selfLoopFree_append {l : List (Nat × Nat)} {u v : Nat}
    (hl : selfLoopFree l = true) (huv : u ≠ v) :
    selfLoopFree (l ++ [(u, v)]) = true := by
  simp only [selfLoopFree, List.all_append, List.all_cons, List.all_nil,
    Bool.and_eq_true] at hl ⊢
  exact ⟨hl, by simpa using huv, trivial⟩

/-- Guarded edge insertion preserves loop freedom when the candidate
target differs from the source. -/
theorem selfLoop_maybeAddEdge (g : Graph) (p : Nat) (r : Option Nat)
    (h : selfLoopFree g.edges = true)
    (hr : ∀ t, r = some t → p ≠ t) :
    selfLoopFree (g.maybeAddEdge p r).edges = true := by
  cases r with
  | none => exact h
  | some t =>
    show selfLoopFree (if g.edgeExists p t then g else g.addEdge p t).edges = true
    by_cases hex : g.edgeExists p t = true
    · rw [if_pos hex]; exact h
    · rw [if_neg hex]
      exact selfLoopFree_append h (hr t rfl)

/-- The Theta reference sweep never adds a self-loop: the linear
successor scan returns a vertex strictly greater than the probe under an
irreflexive comparator. -/
theorem thetaRef_selfLoopFree (lt : Nat → Nat → Bool)
    (hirr : ∀ x, lt x x = false) :
    ∀ (todo visited : List Nat) (g : Graph),
    selfLoopFree g.edges = true →
      selfLoopFree (thetaRef lt visited todo g).edges = true := by
  intro todo
  induction todo with
  | nil => intro visited g h; exact h
  | cons p rest ih =>
    intro visited g h
    simp only [thetaRef]
    refine ih _ _ (selfLoop_maybeAddEdge g p _ h ?_)
    intro t ht hpt
    rcases linearMinAbove_some_mem ht with ⟨_, hlt⟩
    rw [← hpt] at hlt
    rw [hirr p] at hlt
    cases hlt

/-- The Yao sweep never adds a self-loop: the nearest-neighbour scan
ranges over the post-position suffix, whose elements are strictly greater
than the probe. -/
theorem yaoVisit_selfLoopFree (lt : Nat → Nat → Bool) (pts : List Point)
    (htrans : ∀ x y z, lt x y = true → lt y z = true → lt x z = true)
    (heq : ∀ a b, lt a b = false → lt b a = false → a = b)
    (hirr : ∀ x, lt x x = false) :
    ∀ (todo s : List Nat) (g : Graph),
    s.Pairwise (fun a b => lt a b = true) →
    selfLoopFree g.edges = true →
      selfLoopFree (yaoVisit lt pts todo s g).edges = true := by
  intro todo
  induction todo with
  | nil => intro s g _ h; exact h
  | cons p rest ih =>
    intro s g hs h
    simp only [yaoVisit]
    refine ih _ _ (setInsert_pairwise htrans p hs) (selfLoop_maybeAddEdge g p _ h ?_)
    intro t ht hpt
    have hmem := minElement_mem ht
    have hlt := setAfter_mem_gt htrans heq (setInsert_pairwise htrans p hs) hmem
    rw [← hpt] at hlt
    rw [hirr p] at hlt
    cases hlt

/-! ### Degenerate-cone lemmas -/

/-- A cone run of either builder on a non-degenerate cone succeeds and on
a degenerate cone throws the designated error, for the Theta builder. -/
theorem addEdgesInConeTheta_cases (cw ccw : Direction) (g : Graph) :
    (dirEq ccw cw = false → ∃ g₂, addEdgesInConeTheta cw ccw g = .ok g₂) ∧
    (dirEq ccw cw = true →
      addEdgesInConeTheta cw ccw g = .error degenerateConeError) := by
  constructor
  · intro h
    unfold addEdgesInConeTheta
    rw [if_neg (by rw [h]; exact Bool.false_ne_true)]
    exact ⟨_, rfl⟩
  · intro h
    unfold addEdgesInConeTheta
    rw [if_pos h]

/-- As `addEdgesInConeTheta_cases`, for the Yao builder. -/
theorem addEdgesInConeYao_cases (cw ccw : Direction) (g : Graph) :
    (dirEq ccw cw = false → ∃ g₂, addEdgesInConeYao cw ccw g = .ok g₂) ∧
    (dirEq ccw cw = true →
      addEdgesInConeYao cw ccw g = .error degenerateConeError) := by
  constructor
  · intro h
    unfold addEdgesInConeYao
    rw [if_neg (by rw [h]; exact Bool.false_ne_true)]
    exact ⟨_, rfl⟩
  · intro h
    unfold addEdgesInConeYao
    rw [if_pos h]

/-- When the first `j` cones are non-degenerate and cone `j` is
degenerate, the loop runs exactly the first `j` cones and then throws,
handing back the graph as left by those cones. -/
theorem runCones_error_split
    (cone : Direction → Direction → Graph → Except String Graph)
    (hok : ∀ cw ccw g, dirEq ccw cw = false → ∃ g₂, cone cw ccw g = .ok g₂)
    (herr : ∀ cw ccw g, dirEq ccw cw = true →
      cone cw ccw g = .error degenerateConeError) :
    ∀ (pairs : List (Direction × Direction)) (j : Nat) (g : Graph),
      j < pairs.length →
      (∀ m, m < j → dirEq (pairs.getD m ((1, 0), (1, 0))).2
        (pairs.getD m ((1, 0), (1, 0))).1 = false) →
      dirEq (pairs.getD j ((1, 0), (1, 0))).2
        (pairs.getD j ((1, 0), (1, 0))).1 = true →
      ∃ gj, runCones cone (pairs.take j) g = .ok gj ∧
        runCones cone pairs g = .error (degenerateConeError, gj) := by
  intro pairs
  induction pairs with
  | nil =>
    intro j g hj _ _
    exact absurd hj (by simp)
  | cons pr rest ih =>
    intro j g hj hfirst hdeg
    cases j with
    | zero =>
      refine ⟨g, by simp [runCones], ?_⟩
      simp only [List.getD_cons_zero] at hdeg
      simp only [runCones, herr pr.1 pr.2 g hdeg]
    | succ j2 =>
      have h0 : dirEq pr.2 pr.1 = false := by
        have := hfirst 0 (Nat.succ_pos j2)
        simpa using this
      rcases hok pr.1 pr.2 g h0 with ⟨g₂, hg₂⟩
      have hj2 : j2 < rest.length := by
        simpa using hj
      have hfirst2 : ∀ m, m < j2 → dirEq (rest.getD m ((1, 0), (1, 0))).2
          (rest.getD m ((1, 0), (1, 0))).1 = false := by
        intro m hm
        have := hfirst (m + 1) (Nat.succ_lt_succ hm)
        simpa using this
      have hdeg2 : dirEq (rest.getD j2 ((1, 0), (1, 0))).2
          (rest.getD j2 ((1, 0), (1, 0))).1 = true := by
        simpa using hdeg
      rcases ih j2 g₂ hj2 hfirst2 hdeg2 with ⟨gj, htake, hfull⟩
      refine ⟨gj, ?_, ?_⟩
      · simp only [List.take_succ_cons, runCones, hg₂]
        exact htake
      · simp only [runCones, hg₂]
        exact hfull

/-! ### Claim theorems -/

/-- Folding `add` over a list of inserts appends them all as entries. -/
theorem buildPST_state (lt : K → K → Bool) (inserts : List (K × V)) :
    buildPST lt inserts = ⟨lt, inserts⟩ := by
  have haux : ∀ (l : List (K × V)) (t : PSTree K V),
      l.foldl (fun t e => t.add e.1 e.2) t = ⟨t.less, t.entries ++ l⟩ := by
    intro l
    induction l with
    | nil => intro t; cases t; simp
    | cons e es ih =>
      intro t
      rw [List.foldl_cons, ih]
      simp [PSTree.add]
  unfold buildPST
  rw [haux]
  rfl

/-- Claim C1: for a `Plane_Scan_Tree` built by a sequence of
`add(key, value)` calls with pairwise-distinct keys under the key
comparator, `minAbove(x)` returns the value associated with the minimum
key strictly greater than `x` among the inserted entries, and returns
null exactly when the tree is empty or every inserted key is `≤ x`. -/
theorem C1_minimum_above_correct {K V : Type} (lt : K → K → Bool)
    (inserts : List (K × V)) (x : K)
    (htrans : ∀ a b c, lt a b = true → lt b c = true → lt a c = true)
    (hasym : ∀ a b, lt a b = true → lt b a = true → False)
    (hdistinct : (inserts.map Prod.fst).Pairwise
      (fun a b => lt a b = true ∨ lt b a = true)) :
    ((buildPST lt inserts).minAbove x = none ↔
      ∀ k ∈ inserts.map Prod.fst, lt x k = false) ∧
    (∀ v : V, (buildPST lt inserts).minAbove x = some v ↔
      ∃ k, (k, v) ∈ inserts ∧ lt x k = true ∧
        ∀ j ∈ inserts.map Prod.fst, lt x j = true → lt j k = false) := by
  rw [buildPST_state]
  have hpe : inserts.Pairwise
      (fun a b : K × V => lt a.1 b.1 = true ∨ lt b.1 a.1 = true) :=
    (List.pairwise_map.mp hdistinct)
  constructor
  · show (minAboveList lt x inserts).map (fun e => e.2) = none ↔ _
    cases hm : minAboveList lt x inserts with
    | none =>
      constructor
      · intro _ k hk
        rcases List.mem_map.mp hk with ⟨e, he, hek⟩
        rw [← hek]
        exact (minAboveList_eq_none_iff lt x inserts).mp hm e he
      · intro _; rfl
    | some e =>
      constructor
      · intro hcontra
        exact absurd hcontra (by simp)
      · intro hall
        rcases minAboveList_some_mem hm with ⟨hmem, hlt⟩
        have := hall e.1 (List.mem_map.mpr ⟨e, hmem, rfl⟩)
        rw [this] at hlt
        cases hlt
  · intro v
    show (minAboveList lt x inserts).map (fun e => e.2) = some v ↔ _
    constructor
    · intro hv
      cases hm : minAboveList lt x inserts with
      | none => rw [hm] at hv; cases hv
      | some e =>
        rw [hm] at hv
        have hev : e.2 = v := by injection hv with h2
        rcases minAboveList_some_mem hm with ⟨hmem, hlt⟩
        refine ⟨e.1, ?_, hlt, ?_⟩
        · rw [← hev]
          simpa using hmem
        · intro j hj hxj
          rcases List.mem_map.mp hj with ⟨f, hf, hfj⟩
          rw [← hfj]
          exact minAboveList_some_min htrans hasym hpe hm f hf (hfj ▸ hxj)
    · rintro ⟨k, hkmem, hxk, hkmin⟩
      have hres : minAboveList lt x inserts = some (k, v) := by
        refine minAboveList_eq_some_of htrans hasym hpe hkmem hxk ?_
        intro f hf hxf
        exact hkmin f.1 (List.mem_map.mpr ⟨f, hf, rfl⟩) hxf
      rw [hres]
      rfl

/-- Concrete discharge of claim C1 at a three-entry tree and probe 2:
the minimum key above 2 is 3, whose value is 30. -/
theorem C1_minimum_above_correct_witness :
    (buildPST (fun a b : Nat => decide (a < b))
      [(3, 30), (1, 10), (5, 50)]).minAbove 2 = some 30 := by
  have h := C1_minimum_above_correct (fun a b : Nat => decide (a < b))
    [(3, 30), (1, 10), (5, 50)] 2
    (fun a b c h1 h2 => by
      simp only [decide_eq_true_eq] at h1 h2 ⊢; omega)
    (fun a b h1 h2 => by
      simp only [decide_eq_true_eq] at h1 h2; omega)
    (by decide)
  exact (h.2 30).mpr ⟨3, by decide, by decide, by decide⟩

/-- Claim C9: `find(k)` on an empty tree dereferences the null root
(undefined behavior, the outer `none`); it carries the unstated
precondition that the tree is non-empty, under which the lookup is
defined; `minAbove`, by contrast, checks the null root and returns null
on an empty tree. -/
theorem C9_find_empty_tree_ub {K V : Type} (lt : K → K → Bool) (x : K)
    (t : PSTree K V) (hne : t.entries ≠ []) :
    (PSTree.empty lt : PSTree K V).find x = none ∧
    (∃ r, t.find x = some r) ∧
    (PSTree.empty lt : PSTree K V).minAbove x = none := by
  refine ⟨rfl, ?_, rfl⟩
  cases he : t.entries with
  | nil => exact absurd he hne
  | cons e es =>
    refine ⟨t.entries.find? (fun f => !t.less x f.1 && !t.less f.1 x), ?_⟩
    unfold PSTree.find
    rw [he]

/-- Concrete discharge of claim C9 at a one-entry tree. -/
theorem C9_find_empty_tree_ub_witness :
    (PSTree.empty (fun a b : Nat => decide (a < b)) : PSTree Nat Nat).find 0 = none ∧
    (∃ r, (⟨fun a b : Nat => decide (a < b), [(1, 1)]⟩ : PSTree Nat Nat).find 0 = some r) ∧
    (PSTree.empty (fun a b : Nat => decide (a < b)) : PSTree Nat Nat).minAbove 0 = none :=
  C9_find_empty_tree_ub (fun a b : Nat => decide (a < b)) 0
    ⟨fun a b : Nat => decide (a < b), [(1, 1)]⟩ (by simp)

/-- Claim C2: on a non-degenerate cone, the Theta builder equals the
reference sweep that visits the vertices in `D1`-sorted order and, for
each vertex `p`, first counts `p` among the inserted vertices, then takes
as target the minimum vertex under `D2` strictly greater than `p` among
those (by a linear scan), adding the edge only if absent; no other edge
is added by the cone. -/
theorem C2_theta_cone_refinement (cwBound ccwBound : Direction) (g : Graph)
    (hdeg : dirEq ccwBound cwBound = false) :
    addEdgesInConeTheta cwBound ccwBound g =
      .ok (thetaRef (lessByDirection cwBound g.points) []
        (sortByLt (lessByDirection ccwBound g.points)
          (List.range g.points.length)) g) := by
  unfold addEdgesInConeTheta
  rw [if_neg (by rw [hdeg]; exact Bool.false_ne_true)]
  exact congrArg Except.ok
    (thetaVisit_eq_ref (lessByDirection cwBound g.points)
      (sortByLt (lessByDirection ccwBound g.points)
        (List.range g.points.length)) [] g)

/-- Concrete discharge of claim C2 at the four corner points and one
quadrant cone. -/
theorem C2_theta_cone_refinement_witness :
    addEdgesInConeTheta (1, 0) (0, 1)
        ⟨[(0, 0), (1, 0), (0, 1), (1, 1)], []⟩ =
      .ok (thetaRef (lessByDirection (1, 0) [(0, 0), (1, 0), (0, 1), (1, 1)]) []
        (sortByLt (lessByDirection (0, 1) [(0, 0), (1, 0), (0, 1), (1, 1)])
          (List.range 4))
        ⟨[(0, 0), (1, 0), (0, 1), (1, 1)], []⟩) :=
  C2_theta_cone_refinement (1, 0) (0, 1)
    ⟨[(0, 0), (1, 0), (0, 1), (1, 1)], []⟩ (by decide)

/-- Claim C3: on a non-degenerate cone, the Yao builder equals the
reference sweep in which each visited vertex `p` is joined to the
Euclidean-nearest vertex among the entries strictly after `p`'s position
in the `D2`-ordered set at that moment (not the next-in-order point under
`D2`); moreover the target of the `std::min_element` linear scan is a
true distance minimizer among those candidates. -/
theorem C3_yao_cone_refinement (cwBound ccwBound : Direction) (g : Graph)
    (base : Point) (cand : List Nat) (r : Nat)
    (hdeg : dirEq ccwBound cwBound = false)
    (hmin : minElement (lessEuclideanDistance g.points base) cand = some r) :
    (addEdgesInConeYao cwBound ccwBound g =
      .ok (yaoRef (lessByDirection cwBound g.points) g.points []
        (sortByLt (lessByDirection ccwBound g.points)
          (List.range g.points.length)) g)) ∧
    r ∈ cand ∧
    (∀ q ∈ cand, lessEuclideanDistance g.points base q r = false) := by
  refine ⟨?_, minElement_mem hmin, ?_⟩
  · unfold addEdgesInConeYao
    rw [if_neg (by rw [hdeg]; exact Bool.false_ne_true)]
    exact congrArg Except.ok
      (yaoVisit_eq_ref (lessByDirection cwBound g.points) g.points
        (fun x y z h1 h2 => lessByDirection_trans h1 h2)
        (fun x y h1 h2 => lessByDirection_asymm h1 h2)
        (fun a b h1 h2 => lessByDirection_eq_of_incomp h1 h2)
        (sortByLt (lessByDirection ccwBound g.points)
          (List.range g.points.length)) [] g)
  · exact minElement_min
      (fun i => lessEuclideanDistance_irrefl g.points base i)
      (fun i j k h1 h2 => lessEuclideanDistance_trans h1 h2)
      (fun i j k h1 h2 => lessEuclideanDistance_neg_trans h1 h2) hmin

/-- Concrete discharge of claim C3 at the four corner points, one
quadrant cone and a two-candidate scan. -/
theorem C3_yao_cone_refinement_witness :
    (addEdgesInConeYao (1, 0) (0, 1)
        ⟨[(0, 0), (1, 0), (0, 1), (1, 1)], []⟩ =
      .ok (yaoRef (lessByDirection (1, 0) [(0, 0), (1, 0), (0, 1), (1, 1)])
        [(0, 0), (1, 0), (0, 1), (1, 1)] []
        (sortByLt (lessByDirection (0, 1) [(0, 0), (1, 0), (0, 1), (1, 1)])
          (List.range 4))
        ⟨[(0, 0), (1, 0), (0, 1), (1, 1)], []⟩)) ∧
    1 ∈ [1, 2] ∧
    (∀ q ∈ [1, 2], lessEuclideanDistance [(0, 0), (1, 0), (0, 1), (1, 1)]
      (0, 0) q 1 = false) :=
  C3_yao_cone_refinement (1, 0) (0, 1)
    ⟨[(0, 0), (1, 0), (0, 1), (1, 1)], []⟩ (0, 0) [1, 2] 1
    (by decide) (by decide)

/-- The sweep of a non-degenerate Theta cone, extracted from a
successful run. -/
theorem addEdgesInConeTheta_ok_eq {cw ccw : Direction} {g g2 : Graph}
    (h : addEdgesInConeTheta cw ccw g = .ok g2) :
    g2 = thetaVisit
      (sortByLt (lessByDirection ccw g.points) (List.range g.points.length))
      (PSTree.empty (lessByDirection cw g.points)) g := by
  unfold addEdgesInConeTheta at h
  by_cases hdeg : dirEq ccw cw = true
  · rw [if_pos hdeg] at h; cases h
  · rw [if_neg hdeg] at h
    injection h with h2
    exact h2.symm

/-- The sweep of a non-degenerate Yao cone, extracted from a successful
run. -/
theorem addEdgesInConeYao_ok_eq {cw ccw : Direction} {g g2 : Graph}
    (h : addEdgesInConeYao cw ccw g = .ok g2) :
    g2 = yaoVisit (lessByDirection cw g.points) g.points
      (sortByLt (lessByDirection ccw g.points) (List.range g.points.length))
      [] g := by
  unfold addEdgesInConeYao at h
  by_cases hdeg : dirEq ccw cw = true
  · rw [if_pos hdeg] at h; cases h
  · rw [if_neg hdeg] at h
    injection h with h2
    exact h2.symm

/-- Claim C4: for every input point set, ray set and both constructors,
the graph observed by the caller (also at throw time) has at most one
edge between any unordered vertex pair, provided the starting edge list
is duplicate-free (in particular when it is empty): an existing-edge
check guards every insertion. -/
theorem C4_no_duplicate_edges (rays : List Direction) (ps : List Point)
    (g : Graph) (h : dupFreeEdges g.edges = true) :
    dupFreeEdges (resultGraph (thetaOperator rays ps g)).edges = true ∧
    dupFreeEdges (resultGraph (yaoOperator rays ps g)).edges = true := by
  constructor
  · unfold thetaOperator
    refine runCones_preserve _ (fun g2 => dupFreeEdges g2.edges = true)
      ?_ _ _ h
    intro cw ccw g1 g2 hok hg1
    rw [addEdgesInConeTheta_ok_eq hok]
    exact thetaVisit_dupFree _ _ _ hg1
  · unfold yaoOperator
    refine runCones_preserve _ (fun g2 => dupFreeEdges g2.edges = true)
      ?_ _ _ h
    intro cw ccw g1 g2 hok hg1
    rw [addEdgesInConeYao_ok_eq hok]
    exact yaoVisit_dupFree _ _ _ _ _ hg1

/-- Concrete discharge of claim C4 at the four corner points, four
quadrant rays and an empty starting graph. -/
theorem C4_no_duplicate_edges_witness :
    dupFreeEdges (resultGraph (thetaOperator [(1, 0), (0, 1), (-1, 0), (0, -1)]
      [(0, 0), (1, 0), (0, 1), (1, 1)] ⟨[], []⟩)).edges = true ∧
    dupFreeEdges (resultGraph (yaoOperator [(1, 0), (0, 1), (-1, 0), (0, -1)]
      [(0, 0), (1, 0), (0, 1), (1, 1)] ⟨[], []⟩)).edges = true :=
  C4_no_duplicate_edges [(1, 0), (0, 1), (-1, 0), (0, -1)]
    [(0, 0), (1, 0), (0, 1), (1, 1)] ⟨[], []⟩ (by decide)

/-- Claim C5: both operators first add exactly one vertex per input
point, in input order — the vertex at index `|g| + i` carries the `i`-th
input point — and during construction no vertex or edge is ever removed:
the observed result extends the starting vertex and edge lists. -/
theorem C5_vertices_in_order (rays : List Direction) (ps : List Point)
    (g : Graph) (i : Nat) (_hi : i < ps.length) :
    (resultGraph (thetaOperator rays ps g)).points = g.points ++ ps ∧
    (∃ l, (resultGraph (thetaOperator rays ps g)).edges = g.edges ++ l) ∧
    (resultGraph (yaoOperator rays ps g)).points = g.points ++ ps ∧
    (∃ l, (resultGraph (yaoOperator rays ps g)).edges = g.edges ++ l) ∧
    (g.addVertices ps).points.getD (g.points.length + i) (0, 0) =
      ps.getD i (0, 0) := by
  have ht := runCones_ext addEdgesInConeTheta
    (fun cw ccw g1 g2 hok => addEdgesInConeTheta_ok hok)
    (conePairs rays) (g.addVertices ps)
  have hy := runCones_ext addEdgesInConeYao
    (fun cw ccw g1 g2 hok => addEdgesInConeYao_ok hok)
    (conePairs rays) (g.addVertices ps)
  refine ⟨ht.1, ht.2, hy.1, hy.2, ?_⟩
  show (g.points ++ ps).getD (g.points.length + i) (0, 0) = ps.getD i (0, 0)
  rw [List.getD_append_right g.points ps (0, 0) (g.points.length + i)
    (Nat.le_add_right g.points.length i)]
  congr 1
  omega

/-- Concrete discharge of claim C5 at two points and two rays. -/
theorem C5_vertices_in_order_witness :
    (resultGraph (thetaOperator [(1, 0), (-1, 0)] [(0, 0), (2, 1)]
      ⟨[], []⟩)).points = [] ++ [(0, 0), (2, 1)] ∧
    (∃ l, (resultGraph (thetaOperator [(1, 0), (-1, 0)] [(0, 0), (2, 1)]
      ⟨[], []⟩)).edges = [] ++ l) ∧
    (resultGraph (yaoOperator [(1, 0), (-1, 0)] [(0, 0), (2, 1)]
      ⟨[], []⟩)).points = [] ++ [(0, 0), (2, 1)] ∧
    (∃ l, (resultGraph (yaoOperator [(1, 0), (-1, 0)] [(0, 0), (2, 1)]
      ⟨[], []⟩)).edges = [] ++ l) ∧
    (Graph.addVertices ⟨[], []⟩ [(0, 0), (2, 1)]).points.getD (0 + 1) (0, 0) =
      [(0, 0), (2, 1)].getD 1 (0, 0) :=
  C5_vertices_in_order [(1, 0), (-1, 0)] [(0, 0), (2, 1)] ⟨[], []⟩ 1
    (by decide)

/-- Claim C6: for both variants, when cone `j` is the first with equal
cw and ccw boundary directions, the construction runs exactly the cones
before `j`, throws the domain error at cone `j` before that cone adds any
edge, and the caller observes the graph left by the earlier cones, whose
edges extend the starting edges. -/
theorem C6_degenerate_cone_aborts (rays : List Direction) (ps : List Point)
    (g : Graph) (j : Nat) (hj : j < (conePairs rays).length)
    (hfirst : ∀ m, m < j → dirEq ((conePairs rays).getD m ((1, 0), (1, 0))).2
      ((conePairs rays).getD m ((1, 0), (1, 0))).1 = false)
    (hdeg : dirEq ((conePairs rays).getD j ((1, 0), (1, 0))).2
      ((conePairs rays).getD j ((1, 0), (1, 0))).1 = true) :
    (∃ gj, runCones addEdgesInConeTheta ((conePairs rays).take j)
        (g.addVertices ps) = .ok gj ∧
      thetaOperator rays ps g = .error (degenerateConeError, gj) ∧
      gj.points = g.points ++ ps ∧ ∃ l, gj.edges = g.edges ++ l) ∧
    (∃ gj, runCones addEdgesInConeYao ((conePairs rays).take j)
        (g.addVertices ps) = .ok gj ∧
      yaoOperator rays ps g = .error (degenerateConeError, gj) ∧
      gj.points = g.points ++ ps ∧ ∃ l, gj.edges = g.edges ++ l) := by
  constructor
  · rcases runCones_error_split addEdgesInConeTheta
      (fun cw ccw g1 h => (addEdgesInConeTheta_cases cw ccw g1).1 h)
      (fun cw ccw g1 h => (addEdgesInConeTheta_cases cw ccw g1).2 h)
      (conePairs rays) j (g.addVertices ps) hj hfirst hdeg with ⟨gj, htake, hfull⟩
    have hext := runCones_ext addEdgesInConeTheta
      (fun cw ccw g1 g2 hok => addEdgesInConeTheta_ok hok)
      ((conePairs rays).take j) (g.addVertices ps)
    rw [htake] at hext
    exact ⟨gj, htake, hfull, hext.1, hext.2⟩
  · rcases runCones_error_split addEdgesInConeYao
      (fun cw ccw g1 h => (addEdgesInConeYao_cases cw ccw g1).1 h)
      (fun cw ccw g1 h => (addEdgesInConeYao_cases cw ccw g1).2 h)
      (conePairs rays) j (g.addVertices ps) hj hfirst hdeg with ⟨gj, htake, hfull⟩
    have hext := runCones_ext addEdgesInConeYao
      (fun cw ccw g1 g2 hok => addEdgesInConeYao_ok hok)
      ((conePairs rays).take j) (g.addVertices ps)
    rw [htake] at hext
    exact ⟨gj, htake, hfull, hext.1, hext.2⟩

/-- Concrete discharge of claim C6: with two equal rays the very first
cone is degenerate, the throw happens immediately, and the caller
observes the vertices with no edge added. -/
theorem C6_degenerate_cone_aborts_witness :
    (∃ gj, runCones addEdgesInConeTheta ((conePairs [(1, 0), (2, 0)]).take 0)
        (Graph.addVertices ⟨[], []⟩ [(0, 0), (1, 1)]) = .ok gj ∧
      thetaOperator [(1, 0), (2, 0)] [(0, 0), (1, 1)] ⟨[], []⟩ =
        .error (degenerateConeError, gj) ∧
      gj.points = [] ++ [(0, 0), (1, 1)] ∧ ∃ l, gj.edges = [] ++ l) ∧
    (∃ gj, runCones addEdgesInConeYao ((conePairs [(1, 0), (2, 0)]).take 0)
        (Graph.addVertices ⟨[], []⟩ [(0, 0), (1, 1)]) = .ok gj ∧
      yaoOperator [(1, 0), (2, 0)] [(0, 0), (1, 1)] ⟨[], []⟩ =
        .error (degenerateConeError, gj) ∧
      gj.points = [] ++ [(0, 0), (1, 1)] ∧ ∃ l, gj.edges = [] ++ l) :=
  C6_degenerate_cone_aborts [(1, 0), (2, 0)] [(0, 0), (1, 1)] ⟨[], []⟩ 0
    (by decide) (fun m hm => absurd hm (Nat.not_lt_zero m)) (by decide)

/-- Claim C7: with `k < 2` either constructor is fatal at construction
time (nothing is constructed); with `k ≥ 2` both constructors succeed and
store `k` cone-boundary ray directions (the ray generator collaborator
returns `k` rays for input `k`). -/
theorem C7_constructor_configuration (cc : Nat → Direction → List Direction)
    (k : Nat) (d : Direction) (hlen : (cc k d).length = k) :
    (k < 2 → mkTheta cc k d = none ∧ mkYao cc k d = none) ∧
    (2 ≤ k → ∃ c : SpannerFunctor, mkTheta cc k d = some c ∧
      mkYao cc k d = some c ∧ c.coneNumber = k ∧ c.rays.length = k) := by
  constructor
  · intro hk
    unfold mkTheta mkYao
    rw [if_pos hk]
    exact ⟨rfl, rfl⟩
  · intro hk
    have hk2 : ¬ k < 2 := Nat.not_lt.mpr hk
    refine ⟨⟨k, cc k d⟩, ?_, ?_, rfl, hlen⟩
    · unfold mkTheta; rw [if_neg hk2]
    · unfold mkYao; rw [if_neg hk2]

/-- Concrete discharge of claim C7 at `k = 3` with a ray generator
returning three rays. -/
theorem C7_constructor_configuration_witness :
    (3 < 2 → mkTheta (fun k d => (List.range k).map (fun _ => d)) 3 (1, 0) = none ∧
      mkYao (fun k d => (List.range k).map (fun _ => d)) 3 (1, 0) = none) ∧
    (2 ≤ 3 → ∃ c : SpannerFunctor,
      mkTheta (fun k d => (List.range k).map (fun _ => d)) 3 (1, 0) = some c ∧
      mkYao (fun k d => (List.range k).map (fun _ => d)) 3 (1, 0) = some c ∧
      c.coneNumber = 3 ∧ c.rays.length = 3) :=
  C7_constructor_configuration (fun k d => (List.range k).map (fun _ => d))
    3 (1, 0) (by decide)

/-- Claim C8: the construction is deterministic — two runs of the same
constructor on identical inputs (same ray set, same point order, same
starting graph) produce identical results, in particular identical edge
sets. -/
theorem C8_deterministic (rays1 rays2 : List Direction) (ps1 ps2 : List Point)
    (g1 g2 : Graph) (hr : rays1 = rays2) (hp : ps1 = ps2) (hg : g1 = g2) :
    thetaOperator rays1 ps1 g1 = thetaOperator rays2 ps2 g2 ∧
    (resultGraph (thetaOperator rays1 ps1 g1)).edges =
      (resultGraph (thetaOperator rays2 ps2 g2)).edges ∧
    yaoOperator rays1 ps1 g1 = yaoOperator rays2 ps2 g2 ∧
    (resultGraph (yaoOperator rays1 ps1 g1)).edges =
      (resultGraph (yaoOperator rays2 ps2 g2)).edges := by
  subst hr; subst hp; subst hg
  exact ⟨rfl, rfl, rfl, rfl⟩

/-- Concrete discharge of claim C8 at the four corner points. -/
theorem C8_deterministic_witness :
    thetaOperator [(1, 0), (0, 1)] [(0, 0), (1, 1)] ⟨[], []⟩ =
      thetaOperator [(1, 0), (0, 1)] [(0, 0), (1, 1)] ⟨[], []⟩ ∧
    (resultGraph (thetaOperator [(1, 0), (0, 1)] [(0, 0), (1, 1)] ⟨[], []⟩)).edges =
      (resultGraph (thetaOperator [(1, 0), (0, 1)] [(0, 0), (1, 1)] ⟨[], []⟩)).edges ∧
    yaoOperator [(1, 0), (0, 1)] [(0, 0), (1, 1)] ⟨[], []⟩ =
      yaoOperator [(1, 0), (0, 1)] [(0, 0), (1, 1)] ⟨[], []⟩ ∧
    (resultGraph (yaoOperator [(1, 0), (0, 1)] [(0, 0), (1, 1)] ⟨[], []⟩)).edges =
      (resultGraph (yaoOperator [(1, 0), (0, 1)] [(0, 0), (1, 1)] ⟨[], []⟩)).edges :=
  C8_deterministic [(1, 0), (0, 1)] [(1, 0), (0, 1)]
    [(0, 0), (1, 1)] [(0, 0), (1, 1)] ⟨[], []⟩ ⟨[], []⟩ rfl rfl rfl

/-- `thetaVisit` started on the freshly created tree is the reference
sweep with no vertex visited yet. -/
theorem thetaVisit_empty_eq_ref (lt : Nat → Nat → Bool) (S : List Nat)
    (g : Graph) :
    thetaVisit S (PSTree.empty lt) g = thetaRef lt [] S g :=
  thetaVisit_eq_ref lt S [] g

/-- Claim C10: neither constructor ever adds a self-loop — the Theta
target has a key strictly greater than the probe under `D2`, and the Yao
scan ranges over the strictly-after suffix — so starting from a loop-free
graph the observed result is loop-free (every edge joins two distinct
vertices). -/
theorem C10_no_self_loops (rays : List Direction) (ps : List Point)
    (g : Graph) (h : selfLoopFree g.edges = true) :
    selfLoopFree (resultGraph (thetaOperator rays ps g)).edges = true ∧
    selfLoopFree (resultGraph (yaoOperator rays ps g)).edges = true := by
  constructor
  · unfold thetaOperator
    refine runCones_preserve _ (fun g2 => selfLoopFree g2.edges = true)
      ?_ _ _ h
    intro cw ccw g1 g2 hok hg1
    rw [addEdgesInConeTheta_ok_eq hok, thetaVisit_empty_eq_ref]
    exact thetaRef_selfLoopFree (lessByDirection cw g1.points)
      (fun x => lessByDirection_irrefl cw g1.points x)
      (sortByLt (lessByDirection ccw g1.points) (List.range g1.points.length))
      [] g1 hg1
  · unfold yaoOperator
    refine runCones_preserve _ (fun g2 => selfLoopFree g2.edges = true)
      ?_ _ _ h
    intro cw ccw g1 g2 hok hg1
    rw [addEdgesInConeYao_ok_eq hok]
    exact yaoVisit_selfLoopFree (lessByDirection cw g1.points) g1.points
      (fun x y z h1 h2 => lessByDirection_trans h1 h2)
      (fun a b h1 h2 => lessByDirection_eq_of_incomp h1 h2)
      (fun x => lessByDirection_irrefl cw g1.points x)
      (sortByLt (lessByDirection ccw g1.points) (List.range g1.points.length))
      [] g1 List.Pairwise.nil hg1

/-- Concrete discharge of claim C10 at the four corner points and four
quadrant rays. -/
theorem C10_no_self_loops_witness :
    selfLoopFree (resultGraph (thetaOperator [(1, 0), (0, 1), (-1, 0), (0, -1)]
      [(0, 0), (1, 0), (0, 1), (1, 1)] ⟨[], []⟩)).edges = true ∧
    selfLoopFree (resultGraph (yaoOperator [(1, 0), (0, 1), (-1, 0), (0, -1)]
      [(0, 0), (1, 0), (0, 1), (1, 1)] ⟨[], []⟩)).edges = true :=
  C10_no_self_loops [(1, 0), (0, 1), (-1, 0), (0, -1)]
    [(0, 0), (1, 0), (0, 1), (1, 1)] ⟨[], []⟩ (by decide)

end ConeSpanners
